import Mathlib

/-!
# Verification of the rgip range-lookup engine

A shallow embedding, in Lean 4, of the range-lookup index engine of the
rgip service (dgryski/rgip): the sorted-range table and its binary search
(`ipRange.go`, `unnamed/part_006`), the framed binary codec
(`writeBinary` / `loadIPRangesFromBinary`), the memory-mapped zero-copy
loader (`reflectIpRangeRows` / `mmapIpRanges`), the CSV-based table
builder and reload step (`main.go`), and the expiring status table
(`badiprange.go`).

Machine integers are modelled as `Nat` (for `uint32` fields) and `Int`
(for `int32` payloads and times), with explicit `% 2^32` where the Go
code truncates.  Go run-time panics (out-of-bounds slice indexing) are
modelled by `Option`-valued functions returning `none`.  Byte streams
are `List Nat` with each element standing for one byte.
-/

/-- The range-entry record.  Go declares one copy of this struct per
payload type (`ipRange` with `data int32` in `unnamed/part_006`,
`data interface{}` in `main.go`, and `badIPRange` with a `badIPRecord`
payload in `badiprange.go`); the Lean embedding makes the payload a type
parameter, exactly as the spec's `RangeEntry<V>`. -/
structure ipRangeOf (α : Type) where
  rangeFrom : Nat
  rangeTo : Nat
  data : α
  deriving Repr, DecidableEq

/-- `ipRange` from `src/unnamed/part_006` (lines 22-25): `rangeFrom`,
`rangeTo` are `uint32`, `data` is `int32`. -/
abbrev ipRange := ipRangeOf Int

/-- `badIPRecord` from `src/badiprange.go` (lines 9-12): a status string
with an expiry time.  `time.Time` is modelled as an `Int` instant. -/
structure badIPRecord where
  status : String
  expires : Int
  deriving Repr, DecidableEq

/-- `badIPRange` from `src/badiprange.go` (lines 14-17). -/
abbrev badIPRange := ipRangeOf badIPRecord

/-- The loop of Go's `sort.Search(n, f)`: binary search maintaining
`i ≤ result ≤ j`, narrowing on the midpoint `(i+j)/2`. -/
def sortSearchAux (f : Nat → Bool) (i j : Nat) : Nat :=
  if h : i < j then
    if f ((i + j) / 2) then sortSearchAux f i ((i + j) / 2)
    else sortSearchAux f ((i + j) / 2 + 1) j
  else i
termination_by j - i
decreasing_by
  · omega
  · omega

/-- Go's `sort.Search(n, f)`: the smallest index in `[0, n]` at which
`f` flips to true (for predicates that are false then true); `n` when
`f` is false on all of `[0, n)`. -/
def sortSearch (n : Nat) (f : Nat → Bool) : Nat :=
  sortSearchAux f 0 n

theorem sortSearchAux_ge (f : Nat → Bool) (i j : Nat) : i ≤ sortSearchAux f i j := by
  by_cases h : i < j
  · rw [sortSearchAux, dif_pos h]
    by_cases hf : f ((i + j) / 2) = true
    · rw [if_pos hf]
      exact sortSearchAux_ge f i ((i + j) / 2)
    · rw [if_neg hf]
      have h2 := sortSearchAux_ge f ((i + j) / 2 + 1) j
      omega
  · rw [sortSearchAux, dif_neg h]
termination_by j - i
decreasing_by
  · omega
  · omega

theorem sortSearchAux_le (f : Nat → Bool) (i j : Nat) (hij : i ≤ j) :
    sortSearchAux f i j ≤ j := by
  by_cases h : i < j
  · rw [sortSearchAux, dif_pos h]
    by_cases hf : f ((i + j) / 2) = true
    · rw [if_pos hf]
      have h2 := sortSearchAux_le f i ((i + j) / 2) (by omega)
      omega
    · rw [if_neg hf]
      exact sortSearchAux_le f ((i + j) / 2 + 1) j (by omega)
  · rw [sortSearchAux, dif_neg h]
    exact hij
termination_by j - i
decreasing_by
  · omega
  · omega

theorem sortSearchAux_found (f : Nat → Bool) (i j : Nat) :
    sortSearchAux f i j < j → f (sortSearchAux f i j) = true := by
  intro h
  by_cases hij : i < j
  · rw [sortSearchAux, dif_pos hij] at h ⊢
    by_cases hf : f ((i + j) / 2) = true
    · rw [if_pos hf] at h ⊢
      have hle := sortSearchAux_le f i ((i + j) / 2) (by omega)
      rcases Nat.lt_or_ge (sortSearchAux f i ((i + j) / 2)) ((i + j) / 2) with hlt | hge
      · exact sortSearchAux_found f i ((i + j) / 2) hlt
      · have heq : sortSearchAux f i ((i + j) / 2) = (i + j) / 2 := by omega
        rw [heq]; exact hf
    · rw [if_neg hf] at h ⊢
      exact sortSearchAux_found f ((i + j) / 2 + 1) j h
  · rw [sortSearchAux, dif_neg hij] at h
    omega
termination_by j - i
decreasing_by
  · omega
  · omega

/-- Every index in `[i, result)` fails the predicate, provided the
predicate is downward-false on `[0, j)` (which holds for the table
predicates because tables are sorted by `rangeTo`). -/
theorem sortSearchAux_below (f : Nat → Bool) (i j : Nat)
    (mono : ∀ a b : Nat, a ≤ b → b < j → f b = false → f a = false) :
    ∀ k, i ≤ k → k < sortSearchAux f i j → f k = false := by
  intro k hik hk
  by_cases hij : i < j
  · rw [sortSearchAux, dif_pos hij] at hk
    by_cases hf : f ((i + j) / 2) = true
    · rw [if_pos hf] at hk
      exact sortSearchAux_below f i ((i + j) / 2)
        (fun a b hab hbj hfb => mono a b hab (by omega) hfb) k hik hk
    · rw [if_neg hf] at hk
      rcases Nat.lt_or_ge k ((i + j) / 2 + 1) with hlt | hge
      · exact mono k ((i + j) / 2) (by omega) (by omega)
          (by simpa using hf)
      · exact sortSearchAux_below f ((i + j) / 2 + 1) j mono k hge hk
  · rw [sortSearchAux, dif_neg hij] at hk
    omega
termination_by j - i
decreasing_by
  · omega
  · omega

theorem sortSearch_le (n : Nat) (f : Nat → Bool) : sortSearch n f ≤ n :=
  sortSearchAux_le f 0 n (Nat.zero_le n)

theorem sortSearch_found (n : Nat) (f : Nat → Bool) (h : sortSearch n f < n) :
    f (sortSearch n f) = true :=
  sortSearchAux_found f 0 n h

theorem sortSearch_below (n : Nat) (f : Nat → Bool)
    (mono : ∀ a b : Nat, a ≤ b → b < n → f b = false → f a = false) :
    ∀ k, k < sortSearch n f → f k = false :=
  fun k hk => sortSearchAux_below f 0 n mono k (Nat.zero_le k) hk

/-- Interval membership of an address: `e.rangeFrom <= ip32 && ip32 <= e.rangeTo`,
the hit test shared by every lookup variant in the repository. -/
def encloses {α : Type} (e : ipRangeOf α) (x : Nat) : Prop :=
  e.rangeFrom ≤ x ∧ x ≤ e.rangeTo

/-- The comparison of `ipRangeList.Less` (`src/unnamed/part_006` line 35),
in its non-strict form: the order the table is required to satisfy
(`sort.IsSorted` checks that no adjacent pair is strictly decreasing). -/
def leByTo {α : Type} (a b : ipRangeOf α) : Prop :=
  a.rangeTo ≤ b.rangeTo

instance {α : Type} : DecidableRel (@leByTo α) :=
  fun a b => Nat.decLe a.rangeTo b.rangeTo

instance {α : Type} : IsTotal (ipRangeOf α) leByTo :=
  ⟨fun a b => Nat.le_total a.rangeTo b.rangeTo⟩

instance {α : Type} : IsTrans (ipRangeOf α) leByTo :=
  ⟨fun _ _ _ h1 h2 => Nat.le_trans h1 h2⟩

/-- The table is sorted ascending by `rangeTo` (the §3 invariant). -/
def sortedByTo {α : Type} (r : List (ipRangeOf α)) : Prop :=
  List.Pairwise leByTo r

/-- No two entries' intervals share an address (the §3 invariant). -/
def pairwiseDisjoint {α : Type} (r : List (ipRangeOf α)) : Prop :=
  List.Pairwise (fun a b => ∀ x : Nat, ¬(encloses a x ∧ encloses b x)) r

/-- Every entry is an actual interval: `rangeFrom ≤ rangeTo`. -/
def wellFormed {α : Type} (r : List (ipRangeOf α)) : Prop :=
  ∀ e ∈ r, e.rangeFrom ≤ e.rangeTo

/-- `ipRangeList.lookup` from `src/unnamed/part_006` lines 39-47: binary
search (`sort.Search`) for the first index whose `rangeTo` is `≥ ip32`,
then the guarded hit test `idx < len(r) && r[idx].rangeFrom <= ip32 &&
ip32 <= r[idx].rangeTo`, returning `(r[idx].data, true)` on a hit and
`(0, false)` otherwise.  `zero` is the Go zero value of the payload. -/
def ipRangeListLookup {α : Type} (zero : α) (r : List (ipRangeOf α)) (ip32 : Nat) : α × Bool :=
  let idx := sortSearch r.length (fun i => decide (ip32 ≤ (r.getD i ⟨0, 0, zero⟩).rangeTo))
  if idx < r.length ∧ (r.getD idx ⟨0, 0, zero⟩).rangeFrom ≤ ip32
      ∧ ip32 ≤ (r.getD idx ⟨0, 0, zero⟩).rangeTo then
    ((r.getD idx ⟨0, 0, zero⟩).data, true)
  else
    (zero, false)

/-- `ipRangeList.lookup` from `src/ipRange.go` lines 35-43 (also
`badIPRangeList.lookup`, `src/badiprange.go` lines 26-34, and
`ipRangeList.lookup`, `src/main.go` lines 138-147): identical to the
`part_006` variant except that the bounds guard is `idx != -1`.
`sort.Search` returns a value in `[0, len(r)]` and never `-1`, so that
guard is always true and Go evaluates `r[idx]` unconditionally; when
`idx = len(r)` this is an out-of-bounds slice access (a run-time
panic), modelled here as `none`. -/
def ipRangeListLookupNeg1 {α : Type} (zero : α) (r : List (ipRangeOf α)) (ip32 : Nat) :
    Option (α × Bool) :=
  let idx := sortSearch r.length (fun i => decide (ip32 ≤ (r.getD i ⟨0, 0, zero⟩).rangeTo))
  if idx < r.length then
    if (r.getD idx ⟨0, 0, zero⟩).rangeFrom ≤ ip32 ∧ ip32 ≤ (r.getD idx ⟨0, 0, zero⟩).rangeTo then
      some ((r.getD idx ⟨0, 0, zero⟩).data, true)
    else
      some (zero, false)
  else
    none

theorem lookup_pred_mono {α : Type} (zero : α) (r : List (ipRangeOf α))
    (hs : sortedByTo r) (ip32 : Nat) :
    ∀ a b : Nat, a ≤ b → b < r.length →
      decide (ip32 ≤ (r.getD b ⟨0, 0, zero⟩).rangeTo) = false →
      decide (ip32 ≤ (r.getD a ⟨0, 0, zero⟩).rangeTo) = false := by
  intro a b hab hb hfb
  have ha : a < r.length := by omega
  rcases Nat.lt_or_ge a b with hlt | hge
  · have hto := List.pairwise_iff_get.mp hs ⟨a, ha⟩ ⟨b, hb⟩ hlt
    rw [List.getD_eq_get r _ ha]
    rw [List.getD_eq_get r _ hb] at hfb
    simp only [decide_eq_false_iff_not, Nat.not_le] at hfb ⊢
    exact Nat.lt_of_le_of_lt hto hfb
  · have : a = b := by omega
    rw [this]; exact hfb


theorem ipRangeListLookup_eq {α : Type} (zero : α) (r : List (ipRangeOf α)) (ip32 : Nat) :
    ipRangeListLookup zero r ip32 =
      if sortSearch r.length (fun i => decide (ip32 ≤ (r.getD i ⟨0, 0, zero⟩).rangeTo)) < r.length
          ∧ (r.getD (sortSearch r.length
              (fun i => decide (ip32 ≤ (r.getD i ⟨0, 0, zero⟩).rangeTo))) ⟨0, 0, zero⟩).rangeFrom ≤ ip32
          ∧ ip32 ≤ (r.getD (sortSearch r.length
              (fun i => decide (ip32 ≤ (r.getD i ⟨0, 0, zero⟩).rangeTo))) ⟨0, 0, zero⟩).rangeTo then
        ((r.getD (sortSearch r.length
            (fun i => decide (ip32 ≤ (r.getD i ⟨0, 0, zero⟩).rangeTo))) ⟨0, 0, zero⟩).data, true)
      else
        (zero, false) := rfl

/-- If no entry of the table encloses the address, `lookup` returns
`(zero, false)` — no sortedness needed. -/
theorem ipRangeListLookup_notFound {α : Type} (zero : α) (r : List (ipRangeOf α)) (ip32 : Nat)
    (hno : ∀ e ∈ r, ¬ encloses e ip32) :
    ipRangeListLookup zero r ip32 = (zero, false) := by
  rw [ipRangeListLookup_eq]
  apply if_neg
  rintro ⟨hlt, hfrom, hto⟩
  have hmem : r.getD (sortSearch r.length
      (fun i => decide (ip32 ≤ (r.getD i ⟨0, 0, zero⟩).rangeTo))) ⟨0, 0, zero⟩ ∈ r := by
    rw [List.getD_eq_get r _ hlt]
    exact List.get_mem r _ _
  exact hno _ hmem ⟨hfrom, hto⟩

/-- On a sorted, pairwise-disjoint, well-formed table, `lookup` of an
address enclosed by a member entry returns that entry's payload with
`found = true`. -/
theorem ipRangeListLookup_found {α : Type} (zero : α) (r : List (ipRangeOf α)) (ip32 : Nat)
    (hs : sortedByTo r) (hd : pairwiseDisjoint r) (hw : wellFormed r)
    (e : ipRangeOf α) (he : e ∈ r) (hencl : encloses e ip32) :
    ipRangeListLookup zero r ip32 = (e.data, true) := by
  obtain ⟨j, hj⟩ := List.mem_iff_get.mp he
  set f : Nat → Bool := fun i => decide (ip32 ≤ (r.getD i ⟨0, 0, zero⟩).rangeTo) with hf
  set idx := sortSearch r.length f with hidx
  have hmono := lookup_pred_mono zero r hs ip32
  have hfj : f j.val = true := by
    show decide (ip32 ≤ (r.getD j.val ⟨0, 0, zero⟩).rangeTo) = true
    rw [List.getD_eq_get r _ j.isLt, hj]
    exact decide_eq_true hencl.2
  have hle : idx ≤ j.val := by
    by_contra hgt
    have hbel := sortSearch_below r.length f hmono j.val (by omega)
    rw [hfj] at hbel
    exact Bool.noConfusion hbel
  have hlt : idx < r.length := Nat.lt_of_le_of_lt hle j.isLt
  have hfidx : f idx = true := sortSearch_found r.length f hlt
  have htoidx : ip32 ≤ (r.getD idx ⟨0, 0, zero⟩).rangeTo := by
    have : decide (ip32 ≤ (r.getD idx ⟨0, 0, zero⟩).rangeTo) = true := hfidx
    exact of_decide_eq_true this
  have hdisj := List.pairwise_iff_get.mp hd
  have hsort := List.pairwise_iff_get.mp hs
  have hfromidx : (r.getD idx ⟨0, 0, zero⟩).rangeFrom ≤ ip32 := by
    by_contra hgtfrom
    have hne : idx ≠ j.val := by
      intro heq
      rw [heq, List.getD_eq_get r _ j.isLt, hj] at hgtfrom
      exact hgtfrom hencl.1
    have hidxlt : idx < j.val := by omega
    have hwidx : (r.getD idx ⟨0, 0, zero⟩).rangeFrom ≤ (r.getD idx ⟨0, 0, zero⟩).rangeTo := by
      apply hw
      rw [List.getD_eq_get r _ hlt]
      exact List.get_mem r _ _
    have hto2 : (r.get ⟨idx, hlt⟩).rangeTo ≤ (r.get j).rangeTo :=
      hsort ⟨idx, hlt⟩ j hidxlt
    apply hdisj ⟨idx, hlt⟩ j hidxlt (r.get ⟨idx, hlt⟩).rangeFrom
    rw [← List.getD_eq_get r ⟨0, 0, zero⟩ hlt, hj]
    have hf1 : e.rangeFrom ≤ ip32 := hencl.1
    have hf2 : (r.getD idx ⟨0, 0, zero⟩).rangeTo ≤ e.rangeTo := by
      rw [List.getD_eq_get r _ hlt]
      rw [hj] at hto2
      exact hto2
    exact ⟨⟨Nat.le_refl _, hwidx⟩, by omega, by omega⟩
  have hidxj : idx = j.val := by
    by_contra hne
    have hidxlt : idx < j.val := by omega
    apply hdisj ⟨idx, hlt⟩ j hidxlt ip32
    constructor
    · rw [← List.getD_eq_get r ⟨0, 0, zero⟩ hlt]
      exact ⟨hfromidx, htoidx⟩
    · rw [hj]; exact hencl
  rw [ipRangeListLookup_eq, ← hf, ← hidx, if_pos ⟨hlt, hfromidx, htoidx⟩]
  rw [hidxj, List.getD_eq_get r _ j.isLt, hj]

/-- On a sorted table, when every entry's `rangeTo` is below the address,
the search runs off the end and `lookup` reports not-found. -/
theorem ipRangeListLookup_allBelow {α : Type} (zero : α) (r : List (ipRangeOf α)) (ip32 : Nat)
    (hall : ∀ i, (h : i < r.length) → ¬ ip32 ≤ (r.getD i ⟨0, 0, zero⟩).rangeTo) :
    ipRangeListLookup zero r ip32 = (zero, false) := by
  rw [ipRangeListLookup_eq]
  apply if_neg
  rintro ⟨hlt, -, hto⟩
  exact hall _ hlt hto

/-- On a sorted table, if `i` is the smallest index with `rangeTo ≥ ip32`,
`lookup` lands exactly on `i` and the result is decided by the final
`rangeFrom ≤ ip32` test — the first sentence of the spec's `Lookup`. -/
theorem ipRangeListLookup_least {α : Type} (zero : α) (r : List (ipRangeOf α)) (ip32 : Nat)
    (hs : sortedByTo r) (i : Nat) (hi : i < r.length)
    (hleast : ∀ k, k < i → ¬ ip32 ≤ (r.getD k ⟨0, 0, zero⟩).rangeTo)
    (hhit : ip32 ≤ (r.getD i ⟨0, 0, zero⟩).rangeTo) :
    ipRangeListLookup zero r ip32 =
      if (r.getD i ⟨0, 0, zero⟩).rangeFrom ≤ ip32 then
        ((r.getD i ⟨0, 0, zero⟩).data, true)
      else
        (zero, false) := by
  set f : Nat → Bool := fun k => decide (ip32 ≤ (r.getD k ⟨0, 0, zero⟩).rangeTo) with hf
  set idx := sortSearch r.length f with hidx
  have hmono := lookup_pred_mono zero r hs ip32
  have hfi : f i = true := by
    show decide (ip32 ≤ (r.getD i ⟨0, 0, zero⟩).rangeTo) = true
    exact decide_eq_true hhit
  have hle : idx ≤ i := by
    by_contra hgt
    have hbel := sortSearch_below r.length f hmono i (by omega)
    rw [hfi] at hbel
    exact Bool.noConfusion hbel
  have heq : idx = i := by
    rcases Nat.lt_or_ge idx i with hlt | hge
    · exfalso
      have hfidx : f idx = true := sortSearch_found r.length f (by omega)
      have : ¬ ip32 ≤ (r.getD idx ⟨0, 0, zero⟩).rangeTo := hleast idx hlt
      exact this (of_decide_eq_true hfidx)
    · omega
  rw [ipRangeListLookup_eq, ← hf, ← hidx, heq]
  by_cases hfrom : (r.getD i ⟨0, 0, zero⟩).rangeFrom ≤ ip32
  · rw [if_pos ⟨hi, hfrom, hhit⟩, if_pos hfrom]
  · rw [if_neg (by rintro ⟨-, h2, -⟩; exact hfrom h2), if_neg hfrom]

theorem ipRangeListLookupNeg1_eq {α : Type} (zero : α) (r : List (ipRangeOf α)) (ip32 : Nat) :
    ipRangeListLookupNeg1 zero r ip32 =
      if sortSearch r.length (fun i => decide (ip32 ≤ (r.getD i ⟨0, 0, zero⟩).rangeTo)) < r.length
      then
        if (r.getD (sortSearch r.length
              (fun i => decide (ip32 ≤ (r.getD i ⟨0, 0, zero⟩).rangeTo))) ⟨0, 0, zero⟩).rangeFrom ≤ ip32
            ∧ ip32 ≤ (r.getD (sortSearch r.length
              (fun i => decide (ip32 ≤ (r.getD i ⟨0, 0, zero⟩).rangeTo))) ⟨0, 0, zero⟩).rangeTo then
          some ((r.getD (sortSearch r.length
              (fun i => decide (ip32 ≤ (r.getD i ⟨0, 0, zero⟩).rangeTo))) ⟨0, 0, zero⟩).data, true)
        else
          some (zero, false)
      else
        none := rfl

/-- As long as some entry keeps the binary search in bounds (there is an
entry with `rangeTo ≥ ip32`), the `idx != -1` lookup variant does not
panic and agrees with the corrected (`idx < len`) variant. -/
theorem ipRangeListLookupNeg1_inBounds {α : Type} (zero : α) (r : List (ipRangeOf α)) (ip32 : Nat)
    (hs : sortedByTo r) (e : ipRangeOf α) (he : e ∈ r) (hin : ip32 ≤ e.rangeTo) :
    ipRangeListLookupNeg1 zero r ip32 = some (ipRangeListLookup zero r ip32) := by
  obtain ⟨j, hj⟩ := List.mem_iff_get.mp he
  set f : Nat → Bool := fun i => decide (ip32 ≤ (r.getD i ⟨0, 0, zero⟩).rangeTo) with hf
  set idx := sortSearch r.length f with hidx
  have hmono := lookup_pred_mono zero r hs ip32
  have hfj : f j.val = true := by
    show decide (ip32 ≤ (r.getD j.val ⟨0, 0, zero⟩).rangeTo) = true
    rw [List.getD_eq_get r _ j.isLt, hj]
    exact decide_eq_true hin
  have hle : idx ≤ j.val := by
    by_contra hgt
    have hbel := sortSearch_below r.length f hmono j.val (by omega)
    rw [hfj] at hbel
    exact Bool.noConfusion hbel
  have hlt : idx < r.length := Nat.lt_of_le_of_lt hle j.isLt
  rw [ipRangeListLookupNeg1_eq, ipRangeListLookup_eq, ← hf, ← hidx, if_pos hlt]
  by_cases hc : (r.getD idx ⟨0, 0, zero⟩).rangeFrom ≤ ip32 ∧ ip32 ≤ (r.getD idx ⟨0, 0, zero⟩).rangeTo
  · rw [if_pos hc, if_pos ⟨hlt, hc.1, hc.2⟩]
  · rw [if_neg hc, if_neg (by rintro ⟨-, h2, h3⟩; exact hc ⟨h2, h3⟩)]

/-- When the table is non-empty but every entry's `rangeTo` is below the
address (or the table is empty), the `idx != -1` variant indexes the
slice at `len(r)`: a run-time panic. -/
theorem ipRangeListLookupNeg1_panic {α : Type} (zero : α) (r : List (ipRangeOf α)) (ip32 : Nat)
    (hall : ∀ i, (h : i < r.length) → ¬ ip32 ≤ (r.getD i ⟨0, 0, zero⟩).rangeTo) :
    ipRangeListLookupNeg1 zero r ip32 = none := by
  rw [ipRangeListLookupNeg1_eq]
  apply if_neg
  intro hlt
  exact hall _ hlt (of_decide_eq_true (sortSearch_found r.length _ hlt))

/-- `magicBytes` from `src/unnamed/part_006` line 18:
`{'r','g','i','p','M','a','p',0}`. -/
def magicBytes : List Nat := [114, 103, 105, 112, 77, 97, 112, 0]

/-- `ipRangeSize` from `src/unnamed/part_006` line 20: each on-disk
record is 12 bytes. -/
def ipRangeSize : Nat := 12

/-- `binary.LittleEndian.PutUint32`: the 4 little-endian bytes of a
32-bit value (the `% 2^32` is the uint32 truncation of the store). -/
def putUint32LE (x : Nat) : List Nat :=
  [x % 256, x / 256 % 256, x / 65536 % 256, x / 16777216 % 256]

/-- `binary.LittleEndian.Uint32`: recompose 4 little-endian bytes. -/
def uint32LE (b : List Nat) : Nat :=
  b.getD 0 0 + 256 * b.getD 1 0 + 65536 * b.getD 2 0 + 16777216 * b.getD 3 0

/-- Go's `int32(u)` conversion of a `uint32`: two's-complement
reinterpretation. -/
def int32ofUint32 (u : Nat) : Int :=
  if u < 2147483648 then (u : Int) else (u : Int) - 4294967296

/-- Go's `uint32(d)` conversion of an `int32`: two's-complement
reinterpretation, i.e. the value mod `2^32`. -/
def uint32ofInt (d : Int) : Nat :=
  (d % 4294967296).toNat

/-- One 12-byte record as written by the loop of `writeBinary`
(`src/unnamed/part_006` lines 120-127): little-endian `rangeFrom`,
`rangeTo`, `uint32(data)`. -/
def encodeRecord (e : ipRange) : List Nat :=
  putUint32LE e.rangeFrom ++ putUint32LE e.rangeTo ++ putUint32LE (uint32ofInt e.data)

/-- `writeBinary` from `src/unnamed/part_006` lines 105-137, as the byte
stream it writes: magic header, 4-byte little-endian count
(`uint32(len(ranges))`), the 12-byte records, magic footer. -/
def writeBinary (ranges : List ipRange) : List Nat :=
  magicBytes ++ putUint32LE ranges.length ++ (ranges.map encodeRecord).join ++ magicBytes

/-- The distinct failures of the binary loader, one constructor per
`fmt.Errorf` site of `src/unnamed/part_006` (and the size check of
`src/ipRange.go`'s `reflectIpRangeRows`). -/
inductive loadErr : Type
  /-- `readMagicBytes`: "error reading <name>" — the stream ended
  before the 8 magic bytes could be read. -/
  | readMagic (name : String)
  /-- `readMagicBytes`: "file format is incorrect" — 8 bytes were read
  but they are not the magic. -/
  | badMagic (name : String)
  /-- `loadIPRangesFromBinary`: "can't read file size field". -/
  | shortCount
  /-- `loadIPRangesFromBinary`: "expected <want> items, got <got>". -/
  | shortRecords (want got : Nat)
  /-- `reflectIpRangeRows`: "the length of the byte array <len> isn't a
  multiple of the size of an ipRange". -/
  | sizeMismatch (len : Nat)
  deriving Repr, DecidableEq

/-- `io.ReadFull`: take exactly `n` bytes off the stream, or fail if the
stream is shorter. -/
def readFull (n : Nat) (s : List Nat) : Option (List Nat × List Nat) :=
  if n ≤ s.length then some (s.take n, s.drop n) else none

/-- `readMagicBytes` from `src/unnamed/part_006` lines 56-68: read 8
bytes and compare them with `magicBytes`. -/
def readMagicBytes (s : List Nat) (name : String) : Except loadErr (List Nat) :=
  match readFull magicBytes.length s with
  | none => .error (.readMagic name)
  | some (b, rest) => if b = magicBytes then .ok rest else .error (.badMagic name)

/-- One 12-byte record as parsed by the loop of `loadIPRangesFromBinary`
(`src/unnamed/part_006` lines 90-94): `Uint32(b[0:])`, `Uint32(b[4:])`,
`int32(Uint32(b[8:]))`. -/
def decodeRecord (b : List Nat) : ipRange :=
  ⟨uint32LE (b.take 4), uint32LE ((b.drop 4).take 4), int32ofUint32 (uint32LE (b.drop 8))⟩

/-- The record-reading loop of `loadIPRangesFromBinary`
(`src/unnamed/part_006` lines 83-95): read `remaining` more 12-byte
records; on a short read report "expected `want` items, got `i`" where
`i = want - remaining` records have been read so far. -/
def readRecordsAux (want : Nat) : Nat → List Nat → Except loadErr (List ipRange × List Nat)
  | 0, s => .ok ([], s)
  | remaining + 1, s =>
    match readFull ipRangeSize s with
    | none => .error (.shortRecords want (want - (remaining + 1)))
    | some (b, rest) =>
      match readRecordsAux want remaining rest with
      | .error e => .error e
      | .ok (rs, rest2) => .ok (decodeRecord b :: rs, rest2)

/-- `loadIPRangesFromBinary` from `src/unnamed/part_006` lines 70-103:
header magic, 4-byte little-endian count, `count` records, footer
magic. -/
def loadIPRangesFromBinary (s : List Nat) : Except loadErr (List ipRange) :=
  match readMagicBytes s "header" with
  | .error e => .error e
  | .ok s1 =>
    match readFull 4 s1 with
    | none => .error .shortCount
    | some (lenb, s2) =>
      match readRecordsAux (uint32LE lenb) (uint32LE lenb) s2 with
      | .error e => .error e
      | .ok (rs, s3) =>
        match readMagicBytes s3 "footer" with
        | .error e => .error e
        | .ok _ => .ok rs

/-- Field ranges of the Go struct: `rangeFrom`, `rangeTo` fit `uint32`
and `data` fits `int32`. -/
def fieldsInRange (e : ipRange) : Prop :=
  e.rangeFrom < 4294967296 ∧ e.rangeTo < 4294967296
    ∧ -2147483648 ≤ e.data ∧ e.data < 2147483648

theorem readFull_append (n : Nat) (l1 l2 : List Nat) (h : l1.length = n) :
    readFull n (l1 ++ l2) = some (l1, l2) := by
  rw [readFull, if_pos (by simp [h])]
  subst h
  rw [List.take_left, List.drop_left]

theorem putUint32LE_length (x : Nat) : (putUint32LE x).length = 4 := rfl

theorem uint32LE_putUint32LE (x : Nat) (h : x < 4294967296) :
    uint32LE (putUint32LE x) = x := by
  simp only [putUint32LE, uint32LE, List.getD]
  simp only [List.get?_cons_zero, List.get?_cons_succ, Option.getD_some]
  omega

theorem readMagicBytes_ok (rest : List Nat) (name : String) :
    readMagicBytes (magicBytes ++ rest) name = .ok rest := by
  rw [readMagicBytes, readFull_append magicBytes.length magicBytes rest rfl]
  simp only [if_pos]

theorem decodeRecord_encodeRecord (e : ipRange) (h : fieldsInRange e) :
    decodeRecord (encodeRecord e) = e := by
  obtain ⟨h1, h2, h3, h4⟩ := h
  show decodeRecord
    (putUint32LE e.rangeFrom ++ putUint32LE e.rangeTo ++ putUint32LE (uint32ofInt e.data)) = e
  simp only [putUint32LE, List.cons_append, List.nil_append]
  rw [decodeRecord]
  simp only [List.take, List.drop]
  have hfrom : uint32LE [e.rangeFrom % 256, e.rangeFrom / 256 % 256,
      e.rangeFrom / 65536 % 256, e.rangeFrom / 16777216 % 256] = e.rangeFrom := by
    simp only [uint32LE, List.getD, List.get?_cons_zero, List.get?_cons_succ, Option.getD_some]
    omega
  have hto : uint32LE [e.rangeTo % 256, e.rangeTo / 256 % 256,
      e.rangeTo / 65536 % 256, e.rangeTo / 16777216 % 256] = e.rangeTo := by
    simp only [uint32LE, List.getD, List.get?_cons_zero, List.get?_cons_succ, Option.getD_some]
    omega
  have hu : uint32ofInt e.data < 4294967296 := by
    rw [uint32ofInt]; omega
  have hdata : uint32LE [uint32ofInt e.data % 256, uint32ofInt e.data / 256 % 256,
      uint32ofInt e.data / 65536 % 256, uint32ofInt e.data / 16777216 % 256]
      = uint32ofInt e.data := by
    simp only [uint32LE, List.getD, List.get?_cons_zero, List.get?_cons_succ, Option.getD_some]
    omega
  rw [hfrom, hto, hdata]
  have hback : int32ofUint32 (uint32ofInt e.data) = e.data := by
    rw [int32ofUint32, uint32ofInt]
    split
    · omega
    · omega
  rw [hback]

theorem encodeRecord_length (e : ipRange) : (encodeRecord e).length = 12 := rfl

theorem readRecordsAux_encoded (want : Nat) (rs : List ipRange) (rest : List Nat)
    (hb : ∀ e ∈ rs, fieldsInRange e) :
    readRecordsAux want rs.length ((rs.map encodeRecord).join ++ rest) = .ok (rs, rest) := by
  induction rs generalizing rest with
  | nil => simp [readRecordsAux]
  | cons e rs ih =>
    have hjoin : ((e :: rs).map encodeRecord).join ++ rest
        = encodeRecord e ++ ((rs.map encodeRecord).join ++ rest) := by
      simp [List.join]
    rw [List.length_cons, hjoin, readRecordsAux]
    rw [show ipRangeSize = 12 from rfl]
    rw [readFull_append 12 (encodeRecord e) _ (encodeRecord_length e)]
    dsimp only
    rw [ih rest (fun x hx => hb x (List.mem_cons_of_mem e hx))]
    rw [decodeRecord_encodeRecord e (hb e (List.mem_cons_self e rs))]

/-- The record loop always succeeds when the stream holds at least
`12 * n` bytes, consuming exactly `12 * n` of them and producing `n`
entries (arbitrary byte content decodes to some record). -/
theorem readRecordsAux_total (want n : Nat) (s : List Nat) (h : 12 * n ≤ s.length) :
    ∃ rs : List ipRange, readRecordsAux want n s = .ok (rs, s.drop (12 * n))
      ∧ rs.length = n := by
  induction n generalizing s with
  | zero => exact ⟨[], by simp [readRecordsAux], rfl⟩
  | succ n ih =>
    rw [readRecordsAux]
    have h12 : 12 ≤ s.length := by omega
    rw [show ipRangeSize = 12 from rfl, readFull, if_pos h12]
    obtain ⟨rs, hrs, hlen⟩ := ih (s.drop 12) (by simp; omega)
    refine ⟨decodeRecord (s.take 12) :: rs, ?_, by simp [hlen]⟩
    dsimp only
    rw [hrs]
    simp only [List.drop_drop]
    rw [show (12 : Nat) + 12 * n = 12 * (n + 1) by omega]

/-- The record loop fails with the "expected want items, got i" error
when the stream is shorter than `12 * n` bytes. -/
theorem readRecordsAux_short (want n : Nat) (s : List Nat) (h : s.length < 12 * n) :
    ∃ got, readRecordsAux want n s = .error (.shortRecords want got) := by
  induction n generalizing s with
  | zero => omega
  | succ n ih =>
    rw [readRecordsAux, show ipRangeSize = 12 from rfl, readFull]
    by_cases h12 : 12 ≤ s.length
    · rw [if_pos h12]
      obtain ⟨got, hgot⟩ := ih (s.drop 12) (by simp; omega)
      refine ⟨got, ?_⟩
      dsimp only
      rw [hgot]
    · rw [if_neg h12]
      exact ⟨want - (n + 1), rfl⟩


theorem readMagicBytes_self (name : String) :
    readMagicBytes magicBytes name = .ok [] := rfl

/-- C2 — Encode/decode round-trip: decoding the bytes written by
`writeBinary` for any valid table (sorted ascending by `rangeTo`,
pairwise disjoint, fields in `uint32`/`int32` range, count
representable) succeeds and returns exactly the original entries, in
order, field for field. -/
theorem loadIPRangesFromBinary_writeBinary (rs : List ipRange)
    (hs : sortedByTo rs) (hd : pairwiseDisjoint rs)
    (hlen : rs.length < 4294967296) (hb : ∀ e ∈ rs, fieldsInRange e) :
    loadIPRangesFromBinary (writeBinary rs) = .ok rs := by
  have hassoc : magicBytes ++ putUint32LE rs.length ++ (rs.map encodeRecord).join ++ magicBytes
      = magicBytes ++ (putUint32LE rs.length ++ ((rs.map encodeRecord).join ++ magicBytes)) := by
    simp [List.append_assoc]
  rw [writeBinary, hassoc, loadIPRangesFromBinary, readMagicBytes_ok]
  dsimp only
  rw [readFull_append 4 _ _ (putUint32LE_length rs.length)]
  dsimp only
  rw [uint32LE_putUint32LE rs.length hlen]
  rw [readRecordsAux_encoded rs.length rs magicBytes hb]
  dsimp only
  rw [readMagicBytes_self]

theorem readMagicBytes_cases (s : List Nat) (name : String) (h8 : 8 ≤ s.length) :
    readMagicBytes s name
      = if s.take 8 = magicBytes then .ok (s.drop 8) else .error (.badMagic name) := by
  rw [readMagicBytes, show magicBytes.length = 8 from rfl, readFull, if_pos h8]

/-- C5 — decode validation, in source order: (a) 8 bytes of header
present but not the magic ⇒ header format error; (b) fewer record bytes
than the declared count needs ⇒ "expected n items, got i" truncation
error; (c) records all present but the following 8 bytes are not the
magic ⇒ footer format error; (d) header magic, count, `12·n` record
bytes and footer magic all in place ⇒ success with exactly `n`
entries. -/
theorem loadIPRangesFromBinary_checks :
    (∀ s : List Nat, 8 ≤ s.length → s.take 8 ≠ magicBytes →
      loadIPRangesFromBinary s = .error (.badMagic "header"))
    ∧ (∀ (n : Nat) (rest : List Nat), n < 4294967296 → rest.length < 12 * n →
      ∃ got, loadIPRangesFromBinary (magicBytes ++ putUint32LE n ++ rest)
        = .error (.shortRecords n got))
    ∧ (∀ (n : Nat) (rest : List Nat), n < 4294967296 → 12 * n + 8 ≤ rest.length →
      (rest.drop (12 * n)).take 8 ≠ magicBytes →
      loadIPRangesFromBinary (magicBytes ++ putUint32LE n ++ rest)
        = .error (.badMagic "footer"))
    ∧ (∀ (n : Nat) (rest : List Nat), n < 4294967296 → 12 * n + 8 ≤ rest.length →
      (rest.drop (12 * n)).take 8 = magicBytes →
      ∃ rs : List ipRange, loadIPRangesFromBinary (magicBytes ++ putUint32LE n ++ rest)
        = .ok rs ∧ rs.length = n) := by
  have hstream : ∀ (n : Nat) (rest : List Nat), n < 4294967296 →
      loadIPRangesFromBinary (magicBytes ++ putUint32LE n ++ rest)
        = match readRecordsAux n n rest with
          | .error e => .error e
          | .ok (rs, s3) =>
            match readMagicBytes s3 "footer" with
            | .error e => .error e
            | .ok _ => .ok rs := by
    intro n rest hn
    have hassoc : magicBytes ++ putUint32LE n ++ rest
        = magicBytes ++ (putUint32LE n ++ rest) := by
      simp [List.append_assoc]
    rw [hassoc, loadIPRangesFromBinary, readMagicBytes_ok]
    dsimp only
    rw [readFull_append 4 _ _ (putUint32LE_length n)]
    dsimp only
    rw [uint32LE_putUint32LE n hn]
  refine ⟨?_, ?_, ?_, ?_⟩
  · intro s h8 hne
    have h1 : readMagicBytes s "header" = .error (.badMagic "header") := by
      rw [readMagicBytes_cases s "header" h8, if_neg hne]
    rw [loadIPRangesFromBinary, h1]
  · intro n rest hn hshort
    obtain ⟨got, hgot⟩ := readRecordsAux_short n n rest hshort
    refine ⟨got, ?_⟩
    rw [hstream n rest hn, hgot]
  · intro n rest hn hlen hne
    obtain ⟨rs, hrs, -⟩ := readRecordsAux_total n n rest (by omega)
    rw [hstream n rest hn, hrs]
    dsimp only
    rw [readMagicBytes_cases _ "footer" (by simp; omega), if_neg hne]
  · intro n rest hn hlen heq
    obtain ⟨rs, hrs, hrslen⟩ := readRecordsAux_total n n rest (by omega)
    refine ⟨rs, ?_, hrslen⟩
    rw [hstream n rest hn, hrs]
    dsimp only
    rw [readMagicBytes_cases _ "footer" (by simp; omega), if_pos heq]

/-- The reinterpretation of a byte buffer as an `[]ipRange` performed by
`reflectIpRangeRows` (`src/ipRange.go` lines 63-76) through the slice
header: successive 12-byte records, read with the struct's little-endian
in-memory layout (4-byte `rangeFrom`, 4-byte `rangeTo`, 4-byte
two's-complement `data`). -/
def rowsOfBytes (s : List Nat) : List ipRange :=
  if h : s.length = 0 then []
  else decodeRecord (s.take 12) :: rowsOfBytes (s.drop 12)
termination_by s.length
decreasing_by
  simp only [List.length_drop]
  omega

theorem rowsOfBytes_eq (s : List Nat) :
    rowsOfBytes s = if s.length = 0 then []
      else decodeRecord (s.take 12) :: rowsOfBytes (s.drop 12) := by
  rw [rowsOfBytes]
  by_cases h : s.length = 0
  · rw [dif_pos h, if_pos h]
  · rw [dif_neg h, if_neg h]

/-- `reflectIpRangeRows` from `src/ipRange.go` lines 63-76: fail when
the byte length is not an exact multiple of the 12-byte record size,
otherwise reinterpret the whole buffer as records. -/
def reflectIpRangeRows (bytes : List Nat) : Except loadErr (List ipRange) :=
  if bytes.length % 12 ≠ 0 then .error (.sizeMismatch bytes.length)
  else .ok (rowsOfBytes bytes)

/-- `mmapIpRanges` from `src/ipRange.go` lines 83-95, applied to the
content of the mapped file (the `os.OpenFile`/`mmap.Map` system errors
are outside the model): the whole mapped byte range goes straight to
`reflectIpRangeRows`. -/
def mmapIpRanges (bytes : List Nat) : Except loadErr (List ipRange) :=
  reflectIpRangeRows bytes

theorem rowsOfBytes_length (fuel : Nat) : ∀ s : List Nat, s.length ≤ fuel →
    (rowsOfBytes s).length = (s.length + 11) / 12 := by
  induction fuel with
  | zero =>
    intro s hs
    have h0 : s.length = 0 := by omega
    rw [rowsOfBytes_eq, if_pos h0, h0]
    rfl
  | succ fuel ih =>
    intro s hs
    by_cases h0 : s.length = 0
    · rw [rowsOfBytes_eq, if_pos h0, h0]
      rfl
    · rw [rowsOfBytes_eq, if_neg h0, List.length_cons]
      rw [ih (s.drop 12) (by simp; omega)]
      simp only [List.length_drop]
      omega

theorem rowsOfBytes_getD (fuel : Nat) : ∀ (s : List Nat) (i : Nat), s.length ≤ fuel →
    i < (rowsOfBytes s).length →
    (rowsOfBytes s).getD i ⟨0, 0, 0⟩ = decodeRecord ((s.drop (12 * i)).take 12) := by
  induction fuel with
  | zero =>
    intro s i hs hi
    have h0 : s.length = 0 := by omega
    rw [rowsOfBytes_eq, if_pos h0] at hi
    simp at hi
  | succ fuel ih =>
    intro s i hs hi
    by_cases h0 : s.length = 0
    · rw [rowsOfBytes_eq, if_pos h0] at hi
      simp at hi
    · rw [rowsOfBytes_eq, if_neg h0] at hi ⊢
      cases i with
      | zero => simp
      | succ i =>
        have htail : i < (rowsOfBytes (s.drop 12)).length := by
          rw [List.length_cons] at hi
          omega
        have := ih (s.drop 12) i (by simp; omega) htail
        simp only [List.getD_cons_succ]
        rw [this, List.drop_drop]
        rw [show (12 : Nat) + 12 * i = 12 * (i + 1) by omega]

/-- Modelled from the spec: the sharder is missing from this snapshot's
sources — only its caller `iprange_test.go` (`ranges.shard()`,
`shards.lookup(...)`) survives.  Per §4.4, the shard key is the
address's most-significant byte. -/
def shardOf (ip32 : Nat) : Nat :=
  ip32 / 16777216

/-- Modelled from the spec: shard `s` of the sharded index holds, in
their original order, the entries that overlap the shard's address
window `[s·2^24, s·2^24 + 2^24 - 1]`; per §4.4 an entry straddling a
shard boundary is duplicated into every shard it overlaps so the
equivalence invariant is preserved. -/
def shardEntries {α : Type} (rs : List (ipRangeOf α)) (s : Nat) : List (ipRangeOf α) :=
  rs.filter fun e =>
    decide (e.rangeFrom ≤ s * 16777216 + 16777215) && decide (s * 16777216 ≤ e.rangeTo)

/-- Modelled from the spec: `ShardedIndex.Lookup` computes the shard key
from the address and delegates to that shard's `RangeTable.Lookup`
(§4.4). -/
def shardedLookup {α : Type} (zero : α) (rs : List (ipRangeOf α)) (ip32 : Nat) : α × Bool :=
  ipRangeListLookup zero (shardEntries rs (shardOf ip32)) ip32

theorem shardEntries_sublist {α : Type} (rs : List (ipRangeOf α)) (s : Nat) :
    List.Sublist (shardEntries rs s) rs :=
  List.filter_sublist rs

/-- C3 — shard/flat equivalence: on a valid table (sorted by `rangeTo`,
pairwise disjoint, well-formed intervals), looking an address up through
the sharded index gives exactly the flat table's answer. -/
theorem shardedLookup_eq_flat (rs : List ipRange)
    (hs : sortedByTo rs) (hd : pairwiseDisjoint rs) (hw : wellFormed rs)
    (ip32 : Nat) (hip : ip32 < 4294967296) :
    shardedLookup 0 rs ip32 = ipRangeListLookup 0 rs ip32 := by
  have hsub := shardEntries_sublist rs (shardOf ip32)
  by_cases hex : ∃ e ∈ rs, encloses e ip32
  · obtain ⟨e, he, hencl⟩ := hex
    have hwin1 : shardOf ip32 * 16777216 ≤ ip32 := Nat.div_mul_le_self ip32 16777216
    have hwin2 : ip32 ≤ shardOf ip32 * 16777216 + 16777215 := by
      have hdm := Nat.div_add_mod ip32 16777216
      have hmlt : ip32 % 16777216 < 16777216 := Nat.mod_lt ip32 (by omega)
      rw [shardOf]
      omega
    have hmem : e ∈ shardEntries rs (shardOf ip32) := by
      rw [shardEntries, List.mem_filter]
      refine ⟨he, ?_⟩
      rw [Bool.and_eq_true, decide_eq_true_iff, decide_eq_true_iff]
      exact ⟨by have := hencl.1; omega, by have := hencl.2; omega⟩
    rw [shardedLookup,
      ipRangeListLookup_found 0 rs ip32 hs hd hw e he hencl,
      ipRangeListLookup_found 0 (shardEntries rs (shardOf ip32)) ip32
        (List.Pairwise.sublist hsub hs) (List.Pairwise.sublist hsub hd)
        (fun x hx => hw x (List.Sublist.mem hx hsub)) e hmem hencl]
  · push_neg at hex
    rw [shardedLookup,
      ipRangeListLookup_notFound 0 rs ip32 hex,
      ipRangeListLookup_notFound 0 (shardEntries rs (shardOf ip32)) ip32
        (fun x hx => hex x (List.Sublist.mem hx hsub))]

/-- `sort.IsSorted(&ipr)` with `ipRangeList.Less`
(`src/unnamed/part_001` lines 76-78 and 131): every adjacent pair is in
non-decreasing `rangeTo` order. -/
def isSortedByTo {α : Type} : List (ipRangeOf α) → Bool
  | [] => true
  | [_] => true
  | a :: b :: t => decide (a.rangeTo ≤ b.rangeTo) && isSortedByTo (b :: t)

/-- `sort.Sort(&ipr)` with `ipRangeList.Less`: some permutation ordered
by `rangeTo`.  Go's unstable quicksort is modelled by insertion sort:
under the disjointness hypotheses of the theorems below the keys are
pairwise distinct, so the ordered permutation is unique and every
conforming sort produces this exact list. -/
def sortRanges {α : Type} (rs : List (ipRangeOf α)) : List (ipRangeOf α) :=
  List.insertionSort leByTo rs

/-- The sort-before-use step of `openIPRanges`
(`src/unnamed/part_001` lines 131-133):
`if !sort.IsSorted(&ipr) { sort.Sort(&ipr) }`. -/
def openIPRangesSort {α : Type} (rs : List (ipRangeOf α)) : List (ipRangeOf α) :=
  if isSortedByTo rs then rs else sortRanges rs

theorem isSortedByTo_iff {α : Type} (rs : List (ipRangeOf α)) :
    isSortedByTo rs = true ↔ sortedByTo rs := by
  rw [sortedByTo, ← List.chain'_iff_pairwise]
  induction rs with
  | nil => simp [isSortedByTo]
  | cons a t ih =>
    cases t with
    | nil => simp [isSortedByTo]
    | cons b t2 =>
      rw [isSortedByTo, Bool.and_eq_true, decide_eq_true_iff, ih, List.chain'_cons]
      exact Iff.rfl

/-- Strict `rangeTo` order; on tables whose entries are disjoint actual
intervals the sort keys are distinct, so the sorted order is strict. -/
def ltByTo {α : Type} (a b : ipRangeOf α) : Prop :=
  a.rangeTo < b.rangeTo

instance {α : Type} : IsAntisymm (ipRangeOf α) ltByTo :=
  ⟨fun a b h1 h2 => absurd (Nat.lt_trans h1 h2) (Nat.lt_irrefl _)⟩

theorem disjoint_wf_ne_to {α : Type} (rs : List (ipRangeOf α))
    (hd : pairwiseDisjoint rs) (hw : wellFormed rs) :
    List.Pairwise (fun a b : ipRangeOf α => a.rangeTo ≠ b.rangeTo) rs := by
  refine List.Pairwise.imp_of_mem ?_ hd
  intro a b ha hb hr heq
  exact hr a.rangeTo ⟨⟨hw a ha, Nat.le_refl _⟩, heq ▸ ⟨hw b hb, Nat.le_refl _⟩⟩

theorem sorted_ne_strict {α : Type} (rs : List (ipRangeOf α))
    (hs : sortedByTo rs)
    (hne : List.Pairwise (fun a b : ipRangeOf α => a.rangeTo ≠ b.rangeTo) rs) :
    List.Pairwise ltByTo rs := by
  have := List.Pairwise.and hs hne
  exact this.imp fun h => Nat.lt_of_le_of_ne h.1 h.2

/-- On a disjoint, well-formed table, the conditional sort of
`openIPRanges` always produces the ordered permutation of its input:
sorting a pre-sorted table is the identity. -/
theorem openIPRangesSort_eq_sortRanges {α : Type} (rs : List (ipRangeOf α))
    (hd : pairwiseDisjoint rs) (hw : wellFormed rs) :
    openIPRangesSort rs = sortRanges rs := by
  rw [openIPRangesSort]
  by_cases hsorted : isSortedByTo rs = true
  · rw [if_pos hsorted]
    have hs : sortedByTo rs := (isSortedByTo_iff rs).mp hsorted
    have hperm : List.Perm (sortRanges rs) rs := List.perm_insertionSort leByTo rs
    have hne := disjoint_wf_ne_to rs hd hw
    have hne' : List.Pairwise (fun a b : ipRangeOf α => a.rangeTo ≠ b.rangeTo) (sortRanges rs) :=
      (List.Perm.pairwise_iff (fun h => Ne.symm h) hperm).mpr hne
    have hstrict1 : List.Pairwise ltByTo (sortRanges rs) :=
      sorted_ne_strict _ (List.sorted_insertionSort leByTo rs) hne'
    have hstrict2 : List.Pairwise ltByTo rs := sorted_ne_strict rs hs hne
    exact (List.eq_of_perm_of_sorted hperm hstrict1 hstrict2).symm
  · rw [if_neg hsorted]

/-- Digit-string accumulator of `strconv.Atoi`. -/
def digitsValAux : Nat → List Char → Option Nat
  | acc, [] => some acc
  | acc, c :: cs =>
    if '0' ≤ c ∧ c ≤ '9' then digitsValAux (acc * 10 + (c.toNat - 48)) cs
    else none

/-- Go's `strconv.Atoi` for inputs within machine-int range (the 64-bit
overflow error is outside the model): optional sign followed by at least
one digit, any other shape is a syntax error. -/
def atoi (s : String) : Except String Int :=
  match s.toList with
  | [] => .error "invalid syntax"
  | '-' :: cs =>
    match cs, digitsValAux 0 cs with
    | [], _ => .error "invalid syntax"
    | _, none => .error "invalid syntax"
    | _, some n => .ok (-(n : Int))
  | '+' :: cs =>
    match cs, digitsValAux 0 cs with
    | [], _ => .error "invalid syntax"
    | _, none => .error "invalid syntax"
    | _, some n => .ok (n : Int)
  | cs =>
    match digitsValAux 0 cs with
    | none => .error "invalid syntax"
    | some n => .ok (n : Int)

/-- `converr` from `src/main.go` lines 168-170: the error slot filled in
by failed conversions. -/
structure converr where
  err : Option String
  deriving Repr, DecidableEq

/-- `converr.check` from `src/main.go` lines 172-179: apply the
conversion; on failure record the error (overwriting any previous one,
as the Go assignment does) and yield 0. -/
def converrCheck (c : converr) (s : String) (f : String → Except String Int) : Int × converr :=
  match f s with
  | .ok i => (i, c)
  | .error e => (0, ⟨some e⟩)

/-- The row loop of `loadIPRangesFromCSV` from `src/main.go` lines
199-230, over the records produced by the CSV reader (each a list of
string fields; `csv.Read` yields at least one field per record, so the
`getD _ ""` defaults are never taken on inputs the reader can produce).
Rows of fewer than 3 fields use the implicit-`from` shape
(`from = prevIP + 1`, which also advances `prevIP` to the parsed `to`);
rows of 3 or more fields carry explicit `from,to,value`.  A recorded
conversion error aborts the whole load.  `uint32(...)` casts are the
two's-complement truncations. -/
def loadIPRangesFromCSVAux (transform : String → Except String Int) :
    Int → List (List String) → Except String (List ipRange)
  | _, [] => .ok []
  | prevIP, r :: rest =>
    if r.length < 3 then
      let ipFrom := prevIP + 1
      let p1 := converrCheck ⟨none⟩ (r.getD 0 "") atoi
      let p2 := converrCheck p1.2 (r.getD 1 "") transform
      match p2.2.err with
      | some e => .error e
      | none =>
        match loadIPRangesFromCSVAux transform p1.1 rest with
        | .error e => .error e
        | .ok l =>
          .ok (⟨(ipFrom % 4294967296).toNat, (p1.1 % 4294967296).toNat, p2.1⟩ :: l)
    else
      let p1 := converrCheck ⟨none⟩ (r.getD 0 "") atoi
      let p2 := converrCheck p1.2 (r.getD 1 "") atoi
      let p3 := converrCheck p2.2 (r.getD 2 "") transform
      match p3.2.err with
      | some e => .error e
      | none =>
        match loadIPRangesFromCSVAux transform prevIP rest with
        | .error e => .error e
        | .ok l =>
          .ok (⟨(p1.1 % 4294967296).toNat, (p2.1 % 4294967296).toNat, p3.1⟩ :: l)

/-- `loadIPRangesFromCSV` from `src/main.go` lines 181-233: the loop
starts with `prevIP = -1`, so an implicit first row ranges from 0. -/
def loadIPRangesFromCSV (transform : String → Except String Int)
    (rows : List (List String)) : Except String (List ipRange) :=
  loadIPRangesFromCSVAux transform (-1) rows

/-- `ipRangeList.lookup` from `src/main.go` lines 138-147: same search
and dead `idx != -1` guard, but the payload is `interface{}` — a hit
returns the payload, an in-bounds miss returns Go `nil` (`some none`),
and `idx = len(r)` panics (`none`). -/
def ipRangeListLookupIface {α : Type} (r : List (ipRangeOf α)) (ip32 : Nat) :
    Option (Option α) :=
  let idx := sortSearch r.length
    (fun i => decide (ip32 ≤ ((r.get? i).map (fun e => e.rangeTo)).getD 0))
  match r.get? idx with
  | none => none
  | some e => if e.rangeFrom ≤ ip32 ∧ ip32 ≤ e.rangeTo then some (some e.data) else some none

/-- `ipRanges.lookup` from `src/main.go` lines 154-164: a `nil` payload
becomes 0, otherwise the `data.(int)` assertion unwraps the value
(`none` still models the underlying panic). -/
def ipRangesLookupInt (r : List ipRange) (ip32 : Nat) : Option Int :=
  match ipRangeListLookupIface r ip32 with
  | none => none
  | some none => some 0
  | some (some d) => some d

/-- The `ufi` branch of `loadDataFiles` from `src/main.go` lines
387-397, as a transition on the published `ufis.ranges` table: parse
the replacement CSV (`transform = strconv.Atoi`); on error keep the
published table and surface the error, on success publish the new
table under the lock. -/
def loadDataFilesUfi (published : List ipRange) (rows : List (List String)) :
    List ipRange × Option String :=
  match loadIPRangesFromCSV atoi rows with
  | .error e => (published, some e)
  | .ok ranges => (ranges, none)

/-- `evilIPList.lookup` from `src/badiprange.go` lines 54-69 (and
`EvilIPList.lookup`, `src/main.go` lines 434-457): a `nil` ranges list
means the feature was never loaded and answers the empty string; a miss
answers the empty string; a hit whose `expires` lies strictly before
`now` (`time.Now().After(expires)`) answers the empty string; otherwise
the hit's status.  `now` stands for `time.Now()`; the underlying list
lookup is the `idx != -1` variant, so `none` models its panic. -/
def evilIPListLookup (ranges : Option (List badIPRange)) (ip32 : Nat) (now : Int) :
    Option String :=
  match ranges with
  | none => some ""
  | some rs =>
    match ipRangeListLookupNeg1 ⟨"", 0⟩ rs ip32 with
    | none => none
    | some (data, ok) =>
      if ok = false then some ""
      else if now > data.expires then some ""
      else some data.status

theorem sortSearchAux_eq (f : Nat → Bool) (i j : Nat) :
    sortSearchAux f i j
      = if i < j then
          (if f ((i + j) / 2) then sortSearchAux f i ((i + j) / 2)
           else sortSearchAux f ((i + j) / 2 + 1) j)
        else i := by
  by_cases h : i < j
  · rw [sortSearchAux, dif_pos h, if_pos h]
  · rw [sortSearchAux, dif_neg h, if_neg h]

/-- Counterexample to C1 as stated: the table
`[{from 100, to 50, 9}, {from 0, to 60, 7}]` is sorted ascending by `to`
(50 ≤ 60) and pairwise disjoint (the first entry's interval is empty),
and `{from 0, to 60}` is an entry with range `[A,B] = [0,60]`; yet
`Lookup(A) = Lookup(0)` returns `(0, false)`, not that entry's
`(7, true)`: the binary search stops at the empty-interval entry whose
`to = 50 ≥ 0`.  The boundary-inclusivity sentence therefore needs every
entry to satisfy `from ≤ to`. -/
theorem c1_counterexample :
    sortedByTo [(⟨100, 50, 9⟩ : ipRange), ⟨0, 60, 7⟩]
    ∧ pairwiseDisjoint [(⟨100, 50, 9⟩ : ipRange), ⟨0, 60, 7⟩]
    ∧ (⟨0, 60, 7⟩ : ipRange) ∈ [(⟨100, 50, 9⟩ : ipRange), ⟨0, 60, 7⟩]
    ∧ ipRangeListLookup 0 [(⟨100, 50, 9⟩ : ipRange), ⟨0, 60, 7⟩] 0 = (0, false)
    ∧ ((0 : Int), false) ≠ ((7 : Int), true) := by
  refine ⟨?_, ?_, ?_, ?_, ?_⟩
  · rw [sortedByTo]
    refine List.Pairwise.cons ?_ (List.pairwise_singleton _ _)
    intro b hb
    simp at hb
    subst hb
    simp [leByTo]
  · rw [pairwiseDisjoint]
    refine List.Pairwise.cons ?_ (List.pairwise_singleton _ _)
    intro b hb
    simp at hb
    subst hb
    intro x hx
    simp [encloses] at hx
    omega
  · simp
  · simp [ipRangeListLookup, sortSearch, sortSearchAux_eq]
  · simp

/-- C1 (amended) — on a table sorted ascending by `to` and pairwise
disjoint: (A) if no entry has `to ≥ addr`, `Lookup(addr)` returns
`(0, false)`; (B) if `i` is the smallest index with `entries[i].to ≥
addr`, the result is `(entries[i].value, true)` when `entries[i].from ≤
addr` and `(0, false)` otherwise; (C) provided additionally every entry
satisfies `from ≤ to`: for an entry with range `[A,B]`, `Lookup(A)` and
`Lookup(B)` return that entry's value with `found = true`, and when the
next range starts at `C > B+1`, `Lookup(B+1)` returns `(0, false)`. -/
theorem c1_amended_lookup (r : List ipRange)
    (hs : sortedByTo r) (hd : pairwiseDisjoint r) :
    (∀ ip32 : Nat, (∀ i, i < r.length → ¬ ip32 ≤ (r.getD i ⟨0, 0, 0⟩).rangeTo) →
      ipRangeListLookup 0 r ip32 = (0, false))
    ∧ (∀ (ip32 : Nat) (i : Nat), i < r.length →
        (∀ k, k < i → ¬ ip32 ≤ (r.getD k ⟨0, 0, 0⟩).rangeTo) →
        ip32 ≤ (r.getD i ⟨0, 0, 0⟩).rangeTo →
        ipRangeListLookup 0 r ip32
          = if (r.getD i ⟨0, 0, 0⟩).rangeFrom ≤ ip32
            then ((r.getD i ⟨0, 0, 0⟩).data, true) else (0, false))
    ∧ (wellFormed r →
        (∀ e ∈ r, ipRangeListLookup 0 r e.rangeFrom = (e.data, true)
          ∧ ipRangeListLookup 0 r e.rangeTo = (e.data, true))
        ∧ (∀ j, j + 1 < r.length →
            (r.getD j ⟨0, 0, 0⟩).rangeTo + 1 < (r.getD (j + 1) ⟨0, 0, 0⟩).rangeFrom →
            ipRangeListLookup 0 r ((r.getD j ⟨0, 0, 0⟩).rangeTo + 1) = (0, false))) := by
  refine ⟨?_, ?_, ?_⟩
  · intro ip32 hall
    exact ipRangeListLookup_allBelow 0 r ip32 hall
  · intro ip32 i hi hleast hhit
    exact ipRangeListLookup_least 0 r ip32 hs i hi hleast hhit
  · intro hw
    constructor
    · intro e he
      exact ⟨ipRangeListLookup_found 0 r e.rangeFrom hs hd hw e he
          ⟨Nat.le_refl _, hw e he⟩,
        ipRangeListLookup_found 0 r e.rangeTo hs hd hw e he
          ⟨hw e he, Nat.le_refl _⟩⟩
    · intro j hj hgap
      set addr := (r.getD j ⟨0, 0, 0⟩).rangeTo + 1 with haddr
      apply ipRangeListLookup_notFound
      intro e he hencl
      obtain ⟨k, hk⟩ := List.mem_iff_get.mp he
      have hsort := List.pairwise_iff_get.mp hs
      have hdisj := List.pairwise_iff_get.mp hd
      have hjlt : j < r.length := by omega
      rcases Nat.lt_trichotomy k.val (j + 1) with hklt | hkeq | hkgt
      · -- k ≤ j: its rangeTo is at most entry j's, below addr
        have htok : (r.get k).rangeTo ≤ (r.getD j ⟨0, 0, 0⟩).rangeTo := by
          rcases Nat.lt_or_ge k.val j with h2 | h2
          · have := hsort k ⟨j, hjlt⟩ h2
            rw [List.getD_eq_get r _ hjlt]
            exact this
          · have hkj : k.val = j := by omega
            rw [List.getD_eq_get r _ hjlt]
            have : k = ⟨j, hjlt⟩ := Fin.ext hkj
            rw [this]
        rw [hk] at htok
        have := hencl.2
        omega
      · -- k = j + 1: its rangeFrom exceeds addr
        have : k = ⟨j + 1, hj⟩ := Fin.ext hkeq
        rw [this] at hk
        rw [← hk, ← List.getD_eq_get r ⟨0, 0, 0⟩ hj] at hencl
        have := hencl.1
        omega
      · -- k > j + 1: entry j+1 and entry k would overlap at entry
        -- j+1's rangeFrom
        have hk1lt : j + 1 < k.val := hkgt
        have hnext := hdisj ⟨j + 1, hj⟩ k hk1lt (r.get ⟨j + 1, hj⟩).rangeFrom
        apply hnext
        have hwnext : (r.get ⟨j + 1, hj⟩).rangeFrom ≤ (r.get ⟨j + 1, hj⟩).rangeTo :=
          hw _ (List.get_mem r _ _)
        have htos : (r.get ⟨j + 1, hj⟩).rangeTo ≤ (r.get k).rangeTo := hsort ⟨j + 1, hj⟩ k hk1lt
        have hgap2 : addr < (r.get ⟨j + 1, hj⟩).rangeFrom := by
          rw [← List.getD_eq_get r ⟨0, 0, 0⟩ hj]
          exact hgap
        rw [hk] at htos
        rw [hk]
        have he1 := hencl.1
        have he2 := hencl.2
        exact ⟨⟨Nat.le_refl _, hwnext⟩, by omega, by omega⟩

/-- C4 — the claim describes the intended behaviour (and the behaviour
of the corrected `idx < len(r)` guard of `src/unnamed/part_006`), but
the `idx != -1` variants (`src/ipRange.go`, `src/main.go`,
`src/badiprange.go`) index the slice at `len(r)` whenever no entry's
`rangeTo` reaches the address — on the empty table and on any address
above every range — which is a run-time panic (`none`), not
`(0, false)`.  The corrected variant returns `(0, false)` on the same
inputs. -/
theorem c4_outOfBounds_eval :
    ipRangeListLookupNeg1 (0 : Int) ([] : List ipRange) 0 = none
    ∧ ipRangeListLookupNeg1 (0 : Int) [⟨1, 5, 7⟩] 6 = none
    ∧ ipRangeListLookup (0 : Int) ([] : List ipRange) 0 = (0, false)
    ∧ ipRangeListLookup (0 : Int) [⟨1, 5, 7⟩] 6 = (0, false) := by
  refine ⟨?_, ?_, ?_, ?_⟩
  · simp [ipRangeListLookupNeg1, sortSearch, sortSearchAux_eq]
  · simp [ipRangeListLookupNeg1, sortSearch, sortSearchAux_eq]
  · simp [ipRangeListLookup, sortSearch, sortSearchAux_eq]
  · simp [ipRangeListLookup, sortSearch, sortSearchAux_eq]

/-- Counterexample to C6 as stated: a 12-byte file of zeros has neither
a header magic nor a footer magic, yet `mmapIpRanges` succeeds and
exposes it as one record — the mapped-load path performs no magic
verification at all (and `writeMmap` writes none). -/
theorem c6_counterexample :
    List.take 8 (List.replicate 12 0) ≠ magicBytes
    ∧ mmapIpRanges (List.replicate 12 0) = .ok [⟨0, 0, 0⟩] := by
  constructor
  · decide
  · simp [mmapIpRanges, reflectIpRangeRows]
    rw [rowsOfBytes_eq]
    norm_num
    constructor
    · simp [decodeRecord, uint32LE, int32ofUint32]
    · rw [rowsOfBytes_eq]
      simp

/-- C6 (amended) — `mmapIpRanges` checks only that the mapped byte
length is an exact multiple of the 12-byte record size, failing with a
size-mismatch format error otherwise; on success (for any byte content
whatsoever — no magic is verified) it exposes the bytes directly as
`length / 12` records, the `i`-th being the little-endian decoding of
bytes `[12·i, 12·i + 12)`. -/
theorem c6_amended (bytes : List Nat) :
    (bytes.length % 12 ≠ 0 → mmapIpRanges bytes = .error (.sizeMismatch bytes.length))
    ∧ (bytes.length % 12 = 0 → ∃ rs, mmapIpRanges bytes = .ok rs
        ∧ rs.length = bytes.length / 12
        ∧ ∀ i, i < rs.length →
            rs.getD i ⟨0, 0, 0⟩ = decodeRecord ((bytes.drop (12 * i)).take 12)) := by
  constructor
  · intro h
    rw [mmapIpRanges, reflectIpRangeRows, if_pos h]
  · intro h
    rw [mmapIpRanges, reflectIpRangeRows, if_neg (by omega)]
    refine ⟨rowsOfBytes bytes, rfl, ?_, ?_⟩
    · rw [rowsOfBytes_length bytes.length bytes (Nat.le_refl _)]
      omega
    · intro i hi
      exact rowsOfBytes_getD bytes.length bytes i (Nat.le_refl _) hi

theorem c6_amended_witness :
    mmapIpRanges (List.replicate 5 0)
      = .error (.sizeMismatch (List.replicate 5 (0 : Nat)).length)
    ∧ ∃ rs, mmapIpRanges (List.replicate 24 0) = .ok rs ∧ rs.length = 2 := by
  constructor
  · exact (c6_amended (List.replicate 5 0)).1 (by simp)
  · obtain ⟨rs, h1, h2, -⟩ := (c6_amended (List.replicate 24 0)).2 (by simp)
    exact ⟨rs, h1, by simpa using h2⟩

theorem evilIPListLookup_some_eq (rs : List badIPRange) (ip32 : Nat) (now : Int) :
    evilIPListLookup (some rs) ip32 now
      = match ipRangeListLookupNeg1 ⟨"", 0⟩ rs ip32 with
        | none => none
        | some (data, ok) =>
          if ok = false then some ""
          else if now > data.expires then some "" else some data.status := rfl

/-- Counterexample to C7 as stated: for the entry `[5,5]` with status
"s" expiring at time 100, a lookup at `now = 100` — `now` exactly equal
to `expires` — still returns "s": `time.Now().After(expires)` is a
strict comparison, so expiry takes effect only at `now > expires`, not
`now ≥ expires`. -/
theorem c7_counterexample :
    evilIPListLookup (some [⟨5, 5, ⟨"s", 100⟩⟩]) 5 100 = some "s"
    ∧ some "s" ≠ some "" := by
  constructor
  · simp [evilIPListLookup, ipRangeListLookupNeg1, sortSearch, sortSearchAux_eq]
  · simp

/-- C7 (amended) — on a sorted, pairwise-disjoint, well-formed expiring
table: when an entry encloses the address, the lookup returns the empty
string if `now` is strictly after the entry's `expires` (at `now =
expires` the status is still returned), and the entry's status
otherwise; when no entry encloses the address, the lookup returns the
empty string provided some entry keeps the search in bounds
(`addr ≤` its `rangeTo` — otherwise the `idx != -1` slip of C4 panics
instead); and on the absent (`nil`) table it returns the empty
string. -/
theorem c7_amended (rs : List badIPRange)
    (hs : sortedByTo rs) (hd : pairwiseDisjoint rs) (hw : wellFormed rs)
    (ip32 : Nat) (now : Int) :
    (∀ e ∈ rs, encloses e ip32 →
        (now > e.data.expires → evilIPListLookup (some rs) ip32 now = some "")
      ∧ (now ≤ e.data.expires →
          evilIPListLookup (some rs) ip32 now = some e.data.status))
    ∧ ((∀ e ∈ rs, ¬ encloses e ip32) → (∃ e ∈ rs, ip32 ≤ e.rangeTo) →
        evilIPListLookup (some rs) ip32 now = some "")
    ∧ evilIPListLookup none ip32 now = some "" := by
  refine ⟨?_, ?_, rfl⟩
  · intro e he hencl
    have hb := ipRangeListLookupNeg1_inBounds ⟨"", 0⟩ rs ip32 hs e he hencl.2
    have hfound := ipRangeListLookup_found ⟨"", 0⟩ rs ip32 hs hd hw e he hencl
    rw [evilIPListLookup_some_eq, hb, hfound]
    dsimp only
    constructor
    · intro hexp
      rw [if_neg (by simp), if_pos hexp]
    · intro hexp
      rw [if_neg (by simp), if_neg (by omega)]
  · rintro hno ⟨e, he, hin⟩
    have hb := ipRangeListLookupNeg1_inBounds ⟨"", 0⟩ rs ip32 hs e he hin
    have hnf := ipRangeListLookup_notFound ⟨"", 0⟩ rs ip32 hno
    rw [evilIPListLookup_some_eq, hb, hnf]
    rfl

theorem c7_amended_witness :
    evilIPListLookup (some [⟨387534210, 387534213, ⟨"bad", 1000⟩⟩]) 387534212 500
      = some "bad"
    ∧ evilIPListLookup (some [⟨387534210, 387534213, ⟨"bad", 1000⟩⟩]) 387534212 1500
      = some ""
    ∧ evilIPListLookup (some [⟨387534210, 387534213, ⟨"bad", 1000⟩⟩]) 387534209 500
      = some "" := by
  have hs : sortedByTo [(⟨387534210, 387534213, ⟨"bad", 1000⟩⟩ : badIPRange)] :=
    List.pairwise_singleton _ _
  have hd : pairwiseDisjoint [(⟨387534210, 387534213, ⟨"bad", 1000⟩⟩ : badIPRange)] :=
    List.pairwise_singleton _ _
  have hw : wellFormed [(⟨387534210, 387534213, ⟨"bad", 1000⟩⟩ : badIPRange)] := by
    intro e he
    simp at he
    subst he
    norm_num
  refine ⟨?_, ?_, ?_⟩
  · exact ((c7_amended _ hs hd hw 387534212 500).1
      ⟨387534210, 387534213, ⟨"bad", 1000⟩⟩ (by simp)
      ⟨by norm_num, by norm_num⟩).2 (by norm_num)
  · exact ((c7_amended _ hs hd hw 387534212 1500).1
      ⟨387534210, 387534213, ⟨"bad", 1000⟩⟩ (by simp)
      ⟨by norm_num, by norm_num⟩).1 (by norm_num)
  · refine (c7_amended _ hs hd hw 387534209 500).2.1 ?_ ?_
    · intro e he
      simp at he
      subst he
      intro hencl
      have h1 := hencl.1
      norm_num at h1
    · exact ⟨⟨387534210, 387534213, ⟨"bad", 1000⟩⟩, by simp, by norm_num⟩

/-- Counterexample to C8 as stated: the two presentations
`[{100,50,1}, {40,50,2}]` and `[{40,50,2}, {100,50,1}]` hold the same
pairwise-disjoint entries (the first entry's interval is empty) and
both are already sorted ascending by `to` (the keys tie at 50), so
`Build` leaves each as it is; yet `Lookup(45)` returns `(0, false)` on
one and `(2, true)` on the other.  With an empty interval in the set,
"the entries sorted by `to`" is not unique and the claim fails. -/
theorem c8_counterexample :
    pairwiseDisjoint [(⟨100, 50, 1⟩ : ipRange), ⟨40, 50, 2⟩]
    ∧ List.Perm [(⟨100, 50, 1⟩ : ipRange), ⟨40, 50, 2⟩]
        [(⟨40, 50, 2⟩ : ipRange), ⟨100, 50, 1⟩]
    ∧ sortedByTo [(⟨100, 50, 1⟩ : ipRange), ⟨40, 50, 2⟩]
    ∧ sortedByTo [(⟨40, 50, 2⟩ : ipRange), ⟨100, 50, 1⟩]
    ∧ ipRangeListLookup 0 (openIPRangesSort [(⟨100, 50, 1⟩ : ipRange), ⟨40, 50, 2⟩]) 45
        = (0, false)
    ∧ ipRangeListLookup 0 (openIPRangesSort [(⟨40, 50, 2⟩ : ipRange), ⟨100, 50, 1⟩]) 45
        = (2, true) := by
  refine ⟨?_, ?_, ?_, ?_, ?_, ?_⟩
  · rw [pairwiseDisjoint]
    refine List.Pairwise.cons ?_ (List.pairwise_singleton _ _)
    intro b hb
    simp at hb
    subst hb
    intro x hx
    simp [encloses] at hx
    omega
  · exact List.Perm.swap _ _ _
  · rw [sortedByTo]
    refine List.Pairwise.cons ?_ (List.pairwise_singleton _ _)
    intro b hb
    simp at hb
    subst hb
    simp [leByTo]
  · rw [sortedByTo]
    refine List.Pairwise.cons ?_ (List.pairwise_singleton _ _)
    intro b hb
    simp at hb
    subst hb
    simp [leByTo]
  · simp [openIPRangesSort, isSortedByTo, ipRangeListLookup, sortSearch, sortSearchAux_eq]
  · simp [openIPRangesSort, isSortedByTo, ipRangeListLookup, sortSearch, sortSearchAux_eq]

/-- C8 (amended) — for pairwise-disjoint entries every one of which is
an actual interval (`from ≤ to`), building a table from the entries in
an arbitrary order (`Build` sorts unless already sorted) and looking up
any address yields exactly the same `(value, found)` as building from
the same entries presented already sorted by `to`. -/
theorem c8_amended (rs1 rs2 : List ipRange) (hperm : List.Perm rs1 rs2)
    (hs2 : sortedByTo rs2) (hd : pairwiseDisjoint rs1) (hw : wellFormed rs1)
    (ip32 : Nat) :
    ipRangeListLookup 0 (openIPRangesSort rs1) ip32
      = ipRangeListLookup 0 (openIPRangesSort rs2) ip32 := by
  have hd2 : pairwiseDisjoint rs2 :=
    (List.Perm.pairwise_iff (fun h p hc => h p ⟨hc.2, hc.1⟩) hperm).mp hd
  have hw2 : wellFormed rs2 := fun e he => hw e (hperm.mem_iff.mpr he)
  have h1 : openIPRangesSort rs1 = sortRanges rs1 :=
    openIPRangesSort_eq_sortRanges rs1 hd hw
  have h2 : openIPRangesSort rs2 = rs2 := by
    rw [openIPRangesSort, if_pos ((isSortedByTo_iff rs2).mpr hs2)]
  have hpermS : List.Perm (sortRanges rs1) rs2 :=
    (List.perm_insertionSort leByTo rs1).trans hperm
  have hne2 := disjoint_wf_ne_to rs2 hd2 hw2
  have hneS : List.Pairwise (fun a b : ipRange => a.rangeTo ≠ b.rangeTo) (sortRanges rs1) :=
    (List.Perm.pairwise_iff (fun h => Ne.symm h) hpermS).mpr hne2
  have hstrictS := sorted_ne_strict _ (List.sorted_insertionSort leByTo rs1) hneS
  have hstrict2 := sorted_ne_strict rs2 hs2 hne2
  have h3 : sortRanges rs1 = rs2 := List.eq_of_perm_of_sorted hpermS hstrictS hstrict2
  rw [h1, h2, h3]

theorem c8_amended_witness :
    ipRangeListLookup 0 (openIPRangesSort [(⟨10, 20, 1⟩ : ipRange), ⟨0, 5, 2⟩]) 15
      = ipRangeListLookup 0 (openIPRangesSort [(⟨0, 5, 2⟩ : ipRange), ⟨10, 20, 1⟩]) 15 := by
  apply c8_amended
  · exact List.Perm.swap _ _ _
  · rw [sortedByTo]
    refine List.Pairwise.cons ?_ (List.pairwise_singleton _ _)
    intro b hb
    simp at hb
    subst hb
    simp [leByTo]
  · rw [pairwiseDisjoint]
    refine List.Pairwise.cons ?_ (List.pairwise_singleton _ _)
    intro b hb
    simp at hb
    subst hb
    intro x hx
    simp [encloses] at hx
    omega
  · intro e he
    simp at he
    rcases he with h | h <;> subst h <;> simp

/-- C9 — when parsing the replacement CSV fails during a reload, the
`ufi` branch of `loadDataFiles` leaves the published ranges exactly as
they were (the `ufis.ranges` field is not assigned), reports the parse
error to the caller, and every subsequent lookup still answers from
the old table. -/
theorem c9_reload_preserves (published : List ipRange) (rows : List (List String))
    (e : String) (hfail : loadIPRangesFromCSV atoi rows = .error e) :
    (loadDataFilesUfi published rows).1 = published
    ∧ (loadDataFilesUfi published rows).2 = some e
    ∧ ∀ ip32 : Nat, ipRangesLookupInt (loadDataFilesUfi published rows).1 ip32
        = ipRangesLookupInt published ip32 := by
  simp [loadDataFilesUfi, hfail]

theorem c9_reload_preserves_witness :
    (loadDataFilesUfi [(⟨1, 2, 3⟩ : ipRange)] [["x", "1"]]).1 = [(⟨1, 2, 3⟩ : ipRange)]
    ∧ (loadDataFilesUfi [(⟨1, 2, 3⟩ : ipRange)] [["x", "1"]]).2 = some "invalid syntax" := by
  have h := c9_reload_preserves [(⟨1, 2, 3⟩ : ipRange)] [["x", "1"]] "invalid syntax" rfl
  exact ⟨h.1, h.2.1⟩

/-- C10 — the expiring-status lookup on an index whose underlying
ranges list is `nil` (the feature was never loaded) returns the empty
string for every address and time, without touching any entry: the
`evil.badIPRanges.ranges == nil` check answers first. -/
theorem c10_nil_table_lookup : ∀ (ip32 : Nat) (now : Int),
    evilIPListLookup none ip32 now = some "" :=
  fun _ _ => rfl

theorem c1_amended_lookup_witness :
    ipRangeListLookup 0 [(⟨1, 5, 10⟩ : ipRange), ⟨8, 9, 20⟩] 1 = (10, true)
    ∧ ipRangeListLookup 0 [(⟨1, 5, 10⟩ : ipRange), ⟨8, 9, 20⟩] 6 = (0, false) := by
  have hs : sortedByTo [(⟨1, 5, 10⟩ : ipRange), ⟨8, 9, 20⟩] := by
    rw [sortedByTo]
    refine List.Pairwise.cons ?_ (List.pairwise_singleton _ _)
    intro b hb
    simp at hb
    subst hb
    simp [leByTo]
  have hd : pairwiseDisjoint [(⟨1, 5, 10⟩ : ipRange), ⟨8, 9, 20⟩] := by
    rw [pairwiseDisjoint]
    refine List.Pairwise.cons ?_ (List.pairwise_singleton _ _)
    intro b hb
    simp at hb
    subst hb
    intro x hx
    simp [encloses] at hx
    omega
  have hw : wellFormed [(⟨1, 5, 10⟩ : ipRange), ⟨8, 9, 20⟩] := by
    intro e he
    simp at he
    rcases he with h | h <;> subst h <;> simp
  have h := c1_amended_lookup [(⟨1, 5, 10⟩ : ipRange), ⟨8, 9, 20⟩] hs hd
  constructor
  · exact (((h.2.2 hw).1 ⟨1, 5, 10⟩ (by simp)).1)
  · exact (h.2.2 hw).2 0 (by norm_num) (by norm_num)

theorem c2_roundtrip_witness :
    loadIPRangesFromBinary (writeBinary [(⟨1, 2, -5⟩ : ipRange), ⟨4, 6, 9⟩])
      = .ok [(⟨1, 2, -5⟩ : ipRange), ⟨4, 6, 9⟩] := by
  apply loadIPRangesFromBinary_writeBinary
  · rw [sortedByTo]
    refine List.Pairwise.cons ?_ (List.pairwise_singleton _ _)
    intro b hb
    simp at hb
    subst hb
    simp [leByTo]
  · rw [pairwiseDisjoint]
    refine List.Pairwise.cons ?_ (List.pairwise_singleton _ _)
    intro b hb
    simp at hb
    subst hb
    intro x hx
    simp [encloses] at hx
    omega
  · norm_num
  · intro e he
    simp at he
    rcases he with h | h <;> subst h
      <;> exact ⟨by norm_num, by norm_num, by norm_num, by norm_num⟩

theorem c3_shard_witness :
    shardedLookup 0 [(⟨1, 5, 10⟩ : ipRange), ⟨8, 9, 20⟩] 8
      = ipRangeListLookup 0 [(⟨1, 5, 10⟩ : ipRange), ⟨8, 9, 20⟩] 8 := by
  apply shardedLookup_eq_flat
  · rw [sortedByTo]
    refine List.Pairwise.cons ?_ (List.pairwise_singleton _ _)
    intro b hb
    simp at hb
    subst hb
    simp [leByTo]
  · rw [pairwiseDisjoint]
    refine List.Pairwise.cons ?_ (List.pairwise_singleton _ _)
    intro b hb
    simp at hb
    subst hb
    intro x hx
    simp [encloses] at hx
    omega
  · intro e he
    simp at he
    rcases he with h | h <;> subst h <;> simp
  · norm_num

theorem c5_checks_witness :
    loadIPRangesFromBinary (List.replicate 8 0) = .error (.badMagic "header")
    ∧ (∃ got, loadIPRangesFromBinary (magicBytes ++ putUint32LE 1 ++ [])
        = .error (.shortRecords 1 got))
    ∧ loadIPRangesFromBinary (magicBytes ++ putUint32LE 0 ++ List.replicate 8 1)
        = .error (.badMagic "footer")
    ∧ (∃ rs : List ipRange,
        loadIPRangesFromBinary (magicBytes ++ putUint32LE 0 ++ magicBytes) = .ok rs
        ∧ rs.length = 0) := by
  refine ⟨?_, ?_, ?_, ?_⟩
  · exact loadIPRangesFromBinary_checks.1 _ (by simp) (by decide)
  · exact loadIPRangesFromBinary_checks.2.1 1 [] (by norm_num) (by simp)
  · exact loadIPRangesFromBinary_checks.2.2.1 0 _ (by norm_num) (by simp) (by decide)
  · exact loadIPRangesFromBinary_checks.2.2.2 0 _ (by norm_num) (by simp [magicBytes]) (by decide)
